import Mathlib

/-!
# gfm: the Go wrapper around the cmark-gfm C library

A shallow embedding of `gfm.go`.  Go strings are byte sequences.  Every call that
crosses into C (and every Go runtime registration) is appended to a trace, the
`World`; what a stateful C function returns is read from an oracle (`CEnv`) that
sees the whole trace up to the call, so the theorems hold for every behaviour of
the C side.  The two one-shot C functions `cmark_parse_document` and
`cmark_render_html` are pure text/tree transforms and are fields of `CMark`.
-/

namespace Gfm

/-! ## Go and C values -/

/-- A byte of a Go string. -/
abbrev Byte := Fin 256

/-- Go `string`: an immutable sequence of bytes; `len` is `List.length`. -/
abbrev GoString := List Byte

/-- The bytes of an ASCII literal. -/
def bytes (s : String) : GoString := s.toList.map (fun c => Fin.ofNat c.toNat)

/-- The Go literal `"\n"`. -/
def newline : GoString := [10]

/-- Go `strings.HasSuffix(s, suffix)`:
`len(s) >= len(suffix) && s[len(s)-len(suffix):] == suffix`. -/
def HasSuffix (s suffix : GoString) : Bool :=
  decide (suffix.length ≤ s.length) && (s.drop (s.length - suffix.length) == suffix)

/-- A C pointer to a parser, a file, a syntax extension or an extension list;
`0` is `NULL` (Go `nil`). -/
abbrev CPtr := Nat

/-- The nil pointer. -/
def nil : CPtr := 0

/-- Go `C.int(n)`: conversion of a Go `int` to the 32-bit signed C `int`. -/
def cInt (n : Int) : Int := (n + 2 ^ 31) % 2 ^ 32 - 2 ^ 31

/-- One call leaving Go, with the arguments it carries.  `Node` is the type of
`*C.cmark_node` values.  C strings are identified with their contents.
`SetFinalizerParser` and `SetFinalizerNode` record `runtime.SetFinalizer`;
`CMarkNodeFree` records a call of `(*CMarkNode).Free`, a method declared in
another file of the package. -/
inductive Call (Node : Type) where
  | CString (s : GoString)
  | free (s : GoString)
  | cmark_markdown_to_html (text : GoString) (len : Nat) (options : Int)
  | cmark_find_syntax_extension (name : GoString)
  | cmark_parser_attach_syntax_extension (parser : CPtr) (ext : CPtr)
  | cmark_parser_get_syntax_extensions (parser : CPtr)
  | cmark_parser_feed (parser : CPtr) (text : GoString) (len : Nat)
  | cmark_parser_finish (parser : CPtr)
  | cmark_render_html (node : Node) (options : Int) (extensions : CPtr)
  | cmark_gfm_core_extensions_ensure_registered
  | cmark_parser_new (options : Int)
  | cmark_parser_free (parser : CPtr)
  | cmark_parse_document (text : GoString) (len : Nat) (options : Int)
  | cmark_parse_file (file : CPtr) (options : Int)
  | cmark_version
  | fopen (fname : GoString) (access : GoString)
  | fclose (file : CPtr)
  | SetFinalizerParser (parser : CPtr)
  | SetFinalizerNode (node : Node)
  | CMarkNodeFree (node : Node)
  deriving DecidableEq, Repr

/-- The trace of calls made so far, oldest first. -/
abbrev World (Node : Type) := List (Call Node)

/-- The pure entry points of the C library. -/
structure CMark (Node : Type) where
  cmark_parse_document : GoString → Nat → Int → Node
  cmark_render_html : Node → Int → CPtr → GoString

/-- The C library: the pure entry points and, for each stateful C function the
wrapper reads a result from, that result as a function of the trace before the
call and of the arguments. -/
structure CEnv (Node : Type) extends CMark Node where
  cmark_parser_new : World Node → Int → CPtr
  cmark_find_syntax_extension : World Node → GoString → CPtr
  cmark_parser_get_syntax_extensions : World Node → CPtr → CPtr
  cmark_parser_finish : World Node → CPtr → Node
  cmark_parse_file : World Node → CPtr → Int → Node
  fopen : World Node → GoString → GoString → CPtr
  cmark_version : World Node → Int

/-- Modelled from the spec: the C function `cmark_markdown_to_html`, whose
source is not part of the wrapper file.  The spec gives it as
`markdown_to_html(text, options)`, the "convenience composition" of
`parse_document(text, options)` and `render_html(doc, options, extensions)`;
the one-shot call attaches no extension, so the extension list is `NULL`. -/
def cmark_markdown_to_html {Node : Type} (lib : CMark Node)
    (text : GoString) (len : Nat) (options : Int) : GoString :=
  lib.cmark_render_html (lib.cmark_parse_document text len options) options nil

/-! ## The wrapper -/

/-- The Go struct `CMarkParser`. -/
structure CMarkParser where
  parser : CPtr
  deriving DecidableEq, Repr

/-- The Go struct `CMarkNode` (declared in another file of the package; the
wrapper builds it with the single field `node`). -/
structure CMarkNode (Node : Type) where
  node : Node
  deriving DecidableEq, Repr

/-- The Go struct `CMarkExtension`; the embedded `*CMarkParser` is the parent
structure, so `cme.parser` is the promoted field as in Go. -/
structure CMarkExtension extends CMarkParser where
  opts : Int
  extensions : CPtr
  deriving DecidableEq, Repr

variable {Node : Type}

/-- The buffer after the guard
`if !strings.HasSuffix(mdtext, "\n") { mdtext += "\n" }`
shared by `Md2Html` and `ParseDocument`. -/
def appendNewline (mdtext : GoString) : GoString :=
  if !HasSuffix mdtext newline then mdtext ++ newline else mdtext

/-- Go `func Md2Html(mdtext string, options int) string`. -/
def Md2Html (lib : CMark Node) (mdtext : GoString) (options : Int) (w : World Node) :
    GoString × World Node :=
  let mdtext := appendNewline mdtext
  let mdCstr := mdtext
  let w := w ++ [Call.CString mdtext]
  let strLen := mdtext.length
  let htmlString := cmark_markdown_to_html lib mdCstr strLen (cInt options)
  let w := w ++ [Call.cmark_markdown_to_html mdCstr strLen (cInt options)]
  (htmlString, w ++ [Call.free htmlString, Call.free mdCstr])

/-- Go `func (cme *CMarkExtension) ParserAttachExtension(exts ...string)`. -/
def ParserAttachExtension (lib : CEnv Node) (cme : CMarkExtension) :
    List GoString → World Node → CMarkExtension × World Node
  | [], w => (cme, w)
  | ext :: exts, w =>
    let extStr := ext
    let w := w ++ [Call.CString ext]
    let e := lib.cmark_find_syntax_extension w extStr
    let w := w ++ [Call.cmark_find_syntax_extension extStr]
    let w := w ++ [Call.cmark_parser_attach_syntax_extension cme.parser e]
    let w := w ++ [Call.free extStr]
    ParserAttachExtension lib cme exts w

/-- Go `func (cme *CMarkExtension) ParserGetExtensions()`. -/
def ParserGetExtensions (lib : CEnv Node) (cme : CMarkExtension) (w : World Node) :
    CMarkExtension × World Node :=
  let es := lib.cmark_parser_get_syntax_extensions w cme.parser
  ({ cme with extensions := es }, w ++ [Call.cmark_parser_get_syntax_extensions cme.parser])

/-- Go `func (cmp *CMarkParser) Finish() *CMarkNode`. -/
def Finish (lib : CEnv Node) (cmp : CMarkParser) (w : World Node) :
    CMarkNode Node × World Node :=
  let n : CMarkNode Node := { node := lib.cmark_parser_finish w cmp.parser }
  (n, w ++ [Call.cmark_parser_finish cmp.parser, Call.SetFinalizerNode n.node])

/-- Go `func (cme *CMarkExtension) MarkdownToHtml(text string) string`. -/
def MarkdownToHtml (lib : CEnv Node) (cme : CMarkExtension) (text : GoString)
    (w : World Node) : GoString × World Node :=
  let s := text.length
  let cstr := text
  let w := w ++ [Call.CString text]
  let w := w ++ [Call.cmark_parser_feed cme.parser cstr s]
  let (node, w) := Finish lib cme.toCMarkParser w
  let output := lib.cmark_render_html node.node (cInt cme.opts) cme.extensions
  let w := w ++ [Call.cmark_render_html node.node (cInt cme.opts) cme.extensions]
  (output, w ++ [Call.free output, Call.CMarkNodeFree node.node, Call.free cstr])

/-- Go `func (cmp *CMarkParser) Free()`. -/
def Free (cmp : CMarkParser) (w : World Node) : CMarkParser × World Node :=
  let w := if cmp.parser ≠ nil then w ++ [Call.cmark_parser_free cmp.parser] else w
  ({ cmp with parser := nil }, w)

/-- Go `func (cme *CMarkExtension) Close()`: `cme.Free()` on the embedded parser. -/
def Close (cme : CMarkExtension) (w : World Node) : CMarkExtension × World Node :=
  let (p, w) := Free cme.toCMarkParser w
  ({ cme with toCMarkParser := p }, w)

/-- Go `func NewCmarkParser(options int) *CMarkParser`. -/
def NewCmarkParser (lib : CEnv Node) (options : Int) (w : World Node) :
    CMarkParser × World Node :=
  let p : CMarkParser := { parser := lib.cmark_parser_new w (cInt options) }
  (p, w ++ [Call.cmark_parser_new (cInt options), Call.SetFinalizerParser p.parser])

/-- Go `func NewParserWithExts(options int, exts ...string) *CMarkExtension`. -/
def NewParserWithExts (lib : CEnv Node) (options : Int) (exts : List GoString)
    (w : World Node) : CMarkExtension × World Node :=
  let w := w ++ [Call.cmark_gfm_core_extensions_ensure_registered]
  let (p, w) := NewCmarkParser lib options w
  let cme : CMarkExtension := { toCMarkParser := p, opts := options, extensions := nil }
  let (cme, w) := ParserAttachExtension lib cme exts w
  ParserGetExtensions lib cme w

/-- Go `func (cmp *CMarkParser) Feed(text string)`. -/
def Feed (cmp : CMarkParser) (text : GoString) (w : World Node) :
    CMarkParser × World Node :=
  let s := text.length
  let cstr := text
  let w := w ++ [Call.CString text]
  let w := w ++ [Call.cmark_parser_feed cmp.parser cstr s]
  (cmp, w ++ [Call.free cstr])

/-- Go `func ParseDocument(buffer string, options int) *CMarkNode`. -/
def ParseDocument (lib : CMark Node) (buffer : GoString) (options : Int) (w : World Node) :
    CMarkNode Node × World Node :=
  let buffer := appendNewline buffer
  let Cstr := buffer
  let w := w ++ [Call.CString buffer]
  let Clen := buffer.length
  let n : CMarkNode Node := { node := lib.cmark_parse_document Cstr Clen (cInt options) }
  let w := w ++ [Call.cmark_parse_document Cstr Clen (cInt options)]
  let w := w ++ [Call.SetFinalizerNode n.node]
  (n, w ++ [Call.free Cstr])

/-- The message prefix of the error `ParseFile` builds. -/
def unableToOpen : GoString := bytes "Unable to open file with name: "

/-- Go `func ParseFile(filename string, options int) (*CMarkNode, error)`.
The node pointer is `none` for Go `nil`; the error is `none` for Go `nil` and
otherwise carries the message given to `errors.New`. -/
def ParseFile (lib : CEnv Node) (filename : GoString) (options : Int) (w : World Node) :
    (Option (CMarkNode Node) × Option GoString) × World Node :=
  let fname := filename
  let w := w ++ [Call.CString filename]
  let access := bytes "r"
  let w := w ++ [Call.CString (bytes "r")]
  let file := lib.fopen w fname access
  let w := w ++ [Call.fopen fname access]
  if file = nil then
    ((none, some (unableToOpen ++ filename)), w ++ [Call.free access, Call.free fname])
  else
    let n : CMarkNode Node := { node := lib.cmark_parse_file w file (cInt options) }
    let w := w ++ [Call.cmark_parse_file file (cInt options)]
    let w := w ++ [Call.SetFinalizerNode n.node]
    ((some n, none), w ++ [Call.fclose file, Call.free access, Call.free fname])

/-- Go `func CMarkVersion() int`. -/
def CMarkVersion (lib : CEnv Node) (w : World Node) : Int × World Node :=
  (lib.cmark_version w, w ++ [Call.cmark_version])

/-! ## A sample C side, for evaluating the wrapper on concrete inputs -/

/-- A sample pure C library over byte-string documents: parsing keeps the first
`len` bytes of the buffer and rendering returns the document. -/
def sampleMark : CMark GoString where
  cmark_parse_document := fun text len _ => text.take len
  cmark_render_html := fun node _ _ => node

/-- The chunks fed so far to the parser `p`, concatenated. -/
def fedBytes (p : CPtr) : World GoString → GoString
  | [] => []
  | Call.cmark_parser_feed q text len :: w =>
    if q = p then text.take len ++ fedBytes p w else fedBytes p w
  | _ :: w => fedBytes p w

/-- A sample C side: handles are numbered from 1 in allocation order, a name is
found when it is non-empty, a file opens when its name is non-empty, and
finishing a parser returns the bytes fed to it. -/
def sampleEnv : CEnv GoString where
  toCMark := sampleMark
  cmark_parser_new := fun w _ => w.length + 1
  cmark_find_syntax_extension := fun _ name => name.length
  cmark_parser_get_syntax_extensions := fun w _ => w.length + 1
  cmark_parser_finish := fun w p => fedBytes p w
  cmark_parse_file := fun _ file _ => [Fin.ofNat file]
  fopen := fun w fname _ => if fname = [] then nil else w.length + 1
  cmark_version := fun _ => 0

/-! ## Call sequences and views of the trace -/

/-- A release request on the parser of a `CMarkExtension`: `Free` on the embedded
`CMarkParser` or `Close` on the extension itself. -/
inductive ParserOp where
  | Free
  | Close
  deriving DecidableEq, Repr

/-- Run one release request on the parser shared by `cme`. -/
def applyOp (cme : CMarkExtension) (w : World Node) : ParserOp → CMarkExtension × World Node
  | ParserOp.Free => ({ cme with toCMarkParser := (Free cme.toCMarkParser w).1 },
                      (Free cme.toCMarkParser w).2)
  | ParserOp.Close => Close cme w

/-- Run a sequence of release requests, first to last, on the same parser. -/
def applyOps (cme : CMarkExtension) (w : World Node) : List ParserOp → CMarkExtension × World Node
  | [] => (cme, w)
  | op :: ops => applyOps (applyOp cme w op).1 (applyOp cme w op).2 ops

/-- The parsers released in a trace, one entry per `cmark_parser_free` call. -/
def released : World Node → List CPtr
  | [] => []
  | Call.cmark_parser_free p :: w => p :: released w
  | _ :: w => released w

/-- Run a sequence of `Feed` calls, first to last, on one parser. -/
def feedAll (cmp : CMarkParser) (w : World Node) : List GoString → CMarkParser × World Node
  | [] => (cmp, w)
  | text :: texts => feedAll (Feed cmp text w).1 (Feed cmp text w).2 texts

/-- The chunks handed to `cmark_parser_feed` in a trace, in call order: the parser,
the bytes and the length passed. -/
def fedChunks : World Node → List (CPtr × GoString × Nat)
  | [] => []
  | Call.cmark_parser_feed p text len :: w => (p, text, len) :: fedChunks w
  | _ :: w => fedChunks w

/-- The byte stream a list of chunks amounts to: of each chunk, the first `len` bytes. -/
def byteStream (chunks : List (CPtr × GoString × Nat)) : GoString :=
  (chunks.map (fun c => c.2.1.take c.2.2)).flatten

/-- The extension calls of a trace, in call order: the lookups
(`cmark_find_syntax_extension`) and the attaches
(`cmark_parser_attach_syntax_extension`), the other calls left out. -/
def extensionCalls : World Node → World Node
  | [] => []
  | Call.cmark_find_syntax_extension name :: w =>
    Call.cmark_find_syntax_extension name :: extensionCalls w
  | Call.cmark_parser_attach_syntax_extension p e :: w =>
    Call.cmark_parser_attach_syntax_extension p e :: extensionCalls w
  | _ :: w => extensionCalls w

/-- The extension calls expected for the names `names` looked up with results `es`
on the parser `p`: for each name in order its lookup, then its attach. -/
def lookupThenAttach (p : CPtr) : List GoString → List CPtr → World Node
  | name :: names, e :: es =>
    Call.cmark_find_syntax_extension name ::
      Call.cmark_parser_attach_syntax_extension p e :: lookupThenAttach p names es
  | _, _ => []

/-! ## The Markdown core, modelled from the spec

The parser and the renderer are C code that is not part of the wrapper file.  What
follows models, from the words of the spec, the part of them that list tightness
depends on: documents made of bullet list items, plain paragraphs and blank lines,
processed with the default options.  Input outside this fragment has no modelled
result (`none`). -/

/-- Modelled from the spec: the content of a list `Item`, missing from the wrapper
file.  In the fragment an item holds one `Paragraph` (its lines of raw text); the
flag is the spec's "per-item flag set in step 3" of block parsing: a blank line
was consumed after the item's content. -/
structure Item where
  paragraph : List GoString
  blankAfter : Bool
  deriving DecidableEq, Repr

/-- Modelled from the spec: the block `Node` kinds of the fragment, missing from the
wrapper file: `Paragraph` (a leaf block with its lines of raw text) and `List` with
its "tightness flag" and its ordered `Item` children. -/
inductive Block where
  | Paragraph (lines : List GoString)
  | List (tight : Bool) (items : List Item)
  deriving DecidableEq, Repr

/-- Modelled from the spec: the root `Document` node, missing from the wrapper file:
its ordered block children. -/
structure Document where
  children : List Block
  deriving DecidableEq, Repr

/-- Modelled from the spec: the kinds of input line the fragment of the block parser
(missing from the wrapper file) tells apart: a blank line, a line that opens a
bullet list item (`- ` followed by text), a line of paragraph text, and any line
outside the fragment. -/
inductive Line where
  | blank
  | item (text : GoString)
  | text (text : GoString)
  | other
  deriving DecidableEq, Repr

/-- A byte of plain text: an ASCII letter, a digit or a space. -/
def isPlainByte (b : Byte) : Bool :=
  (decide (48 ≤ b.val) && decide (b.val ≤ 57)) || (decide (65 ≤ b.val) && decide (b.val ≤ 90))
    || (decide (97 ≤ b.val) && decide (b.val ≤ 122)) || decide (b.val = 32)

/-- Plain text: non-empty, made of letters, digits and spaces, with no space at
either end.  It holds no block marker and no inline delimiter, so it needs no
inline resolution and no escaping. -/
def isPlain (t : GoString) : Bool :=
  t.all isPlainByte && !(t.head? == some 32) && !(t.getLast? == some 32) && !t.isEmpty

/-- Modelled from the spec: the line classification of the block parser, missing
from the wrapper file, restricted to the fragment. -/
def classify (l : GoString) : Line :=
  if l = [] then Line.blank
  else if l.take 2 = [45, 32] then
    (if isPlain (l.drop 2) then Line.item (l.drop 2) else Line.other)
  else if isPlain l then Line.text l
  else Line.other

/-- Modelled from the spec: the input lines the block parser (missing from the
wrapper file) consumes "line by line": `cur` is the line read so far; a newline
byte ends a line, and an unterminated last line is a line too. -/
def splitLines : GoString → GoString → List GoString
  | cur, [] => if cur = [] then [] else [cur]
  | cur, b :: rest => if b = 10 then cur :: splitLines [] rest else splitLines (cur ++ [b]) rest

/-- Modelled from the spec: the "stack of currently open block Nodes" below the
root, missing from the wrapper file.  In the fragment the open path is empty, a
`Paragraph`, or a `List` with its closed items, its open `Item`, and a flag
telling whether the item's `Paragraph` is still open. -/
inductive OpenBlocks where
  | none
  | para (lines : List GoString)
  | list (items : List Item) (cur : Item) (paraOpen : Bool)
  deriving DecidableEq, Repr

/-- Modelled from the spec: `ParserState`, missing from the wrapper file: the closed
children of the root in document order, and the open blocks. -/
structure ParserState where
  closed : List Block
  opened : OpenBlocks
  deriving DecidableEq, Repr

/-- Modelled from the spec: one step of the block parser (§4.1, "Algorithm per
line"), missing from the wrapper file.  A blank line never starts a block: it
interrupts the open `Paragraph` and sets the flag of the open `Item`.  A bullet
marker at the start of a line does not continue the open item (that would need
indentation), so it closes the item and opens the next one in the same list, or
opens a list.  A text line extends the open `Paragraph` (also as a lazy
continuation inside an item); with no paragraph open it closes the open list and
opens a `Paragraph`.  Lists are created tight; tightness is settled by the
reconciliation pass. -/
def feedLine (s : ParserState) : Line → Option ParserState
  | Line.other => none
  | Line.blank =>
    match s.opened with
    | OpenBlocks.none => some s
    | OpenBlocks.para ls =>
      some { closed := s.closed ++ [Block.Paragraph ls], opened := OpenBlocks.none }
    | OpenBlocks.list items cur _ =>
      some { s with opened := OpenBlocks.list items { cur with blankAfter := true } false }
  | Line.item t =>
    match s.opened with
    | OpenBlocks.none =>
      some { s with opened := OpenBlocks.list [] { paragraph := [t], blankAfter := false } true }
    | OpenBlocks.para ls =>
      some { closed := s.closed ++ [Block.Paragraph ls],
             opened := OpenBlocks.list [] { paragraph := [t], blankAfter := false } true }
    | OpenBlocks.list items cur _ =>
      some { s with opened :=
        OpenBlocks.list (items ++ [cur]) { paragraph := [t], blankAfter := false } true }
  | Line.text t =>
    match s.opened with
    | OpenBlocks.none => some { s with opened := OpenBlocks.para [t] }
    | OpenBlocks.para ls => some { s with opened := OpenBlocks.para (ls ++ [t]) }
    | OpenBlocks.list items cur true =>
      some { s with opened :=
        OpenBlocks.list items { cur with paragraph := cur.paragraph ++ [t] } true }
    | OpenBlocks.list items cur false =>
      some { closed := s.closed ++ [Block.List true (items ++ [cur])],
             opened := OpenBlocks.para [t] }

/-- Modelled from the spec: `feed(line)` repeated for each input line (§4.1), for the
block parser missing from the wrapper file. -/
def feedLines : ParserState → List GoString → Option ParserState
  | s, [] => some s
  | s, l :: ls =>
    match feedLine s (classify l) with
    | some s2 => feedLines s2 ls
    | Option.none => Option.none

/-- Modelled from the spec: the first part of `finish()` (§4.1), missing from the
wrapper file: it "closes all remaining open containers". -/
def closeAll (s : ParserState) : List Block :=
  match s.opened with
  | OpenBlocks.none => s.closed
  | OpenBlocks.para ls => s.closed ++ [Block.Paragraph ls]
  | OpenBlocks.list items cur _ => s.closed ++ [Block.List true (items ++ [cur])]

/-- Modelled from the spec: whether "any two consecutive Item children were separated
by a blank line" (§4.3): some item other than the last has its flag set. -/
def separatedByBlank (items : List Item) : Bool :=
  items.dropLast.any (fun i => i.blankAfter)

/-- Modelled from the spec: the list tightness reconciliation pass (§4.3), missing
from the wrapper file: "a list is tight iff no constituent item is separated from
its neighbor by a blank line". -/
def reconcile : Block → Block
  | Block.Paragraph ls => Block.Paragraph ls
  | Block.List _ items => Block.List (!separatedByBlank items) items

/-- Modelled from the spec: `parse_document` (§6) for the fragment, missing from the
wrapper file: the lines are fed to the block parser, `finish()` closes the open
blocks and runs the tightness reconciliation over every `List`. -/
def specParse (text : GoString) : Option Document :=
  match feedLines { closed := [], opened := OpenBlocks.none } (splitLines [] text) with
  | some s => some { children := (closeAll s).map reconcile }
  | Option.none => Option.none

/-- The lines of a paragraph joined by soft line breaks. -/
def joinLines : List GoString → GoString
  | [] => []
  | [l] => l
  | l :: ls => l ++ newline ++ joinLines ls

/-- Modelled from the spec: the HTML of an `Item` (§4.3, §8), for the renderer
missing from the wrapper file: "Tight lists render Item content without wrapping
Paragraph tags; loose lists render each Item's Paragraph explicitly"
(`<li>a</li>` against `<li><p>a</p></li>`). -/
def renderItem (tight : Bool) (i : Item) : GoString :=
  if tight then bytes "<li>" ++ joinLines i.paragraph ++ bytes "</li>"
  else bytes "<li><p>" ++ joinLines i.paragraph ++ bytes "</p></li>"

/-- Modelled from the spec: the HTML of a block (§4.5), for the renderer missing from
the wrapper file: the opening tag, the content, the closing tag. -/
def renderBlock : Block → GoString
  | Block.Paragraph ls => bytes "<p>" ++ joinLines ls ++ bytes "</p>"
  | Block.List tight items =>
    bytes "<ul>" ++ (items.map (renderItem tight)).flatten ++ bytes "</ul>"

/-- Modelled from the spec: `render(node)` (§4.5) on the root, for the renderer
missing from the wrapper file: a pre-order walk emitting each child in order. -/
def renderDocument (d : Document) : GoString :=
  (d.children.map renderBlock).flatten

/-- Modelled from the spec: the pure entry points `parse_document` and `render_html`
(§6) of the C library, missing from the wrapper file, on the modelled fragment:
default options only, the first `len` bytes of the buffer are the text, and
input outside the fragment has no modelled document and no modelled HTML. -/
def specMark : CMark (Option Document) where
  cmark_parse_document := fun text len options =>
    if options = 0 then specParse (text.take len) else none
  cmark_render_html := fun node options _ =>
    match node with
    | some d => if options = 0 then renderDocument d else []
    | none => []

/-- The Markdown source of one bullet item with text `t`, followed by `blanks`
blank lines. -/
def itemSource (t : GoString) (blanks : Nat) : GoString :=
  bytes "- " ++ t ++ newline ++ (List.replicate blanks newline).flatten

/-- The Markdown source of a bullet list: its items in order, each given by its text
and the number of blank lines that follow it. -/
def listSource (items : List (GoString × Nat)) : GoString :=
  (items.map (fun i => itemSource i.1 i.2)).flatten

/-- The `Item` the block parser builds for a source item: its one-line `Paragraph`,
flagged when at least one blank line follows it. -/
def toItem (i : GoString × Nat) : Item :=
  { paragraph := [i.1], blankAfter := decide (0 < i.2) }

/-- The HTML of a bullet list whose items have the texts `texts`, rendered tight
(`<li>a</li>`) or loose (`<li><p>a</p></li>`). -/
def listHtml (tight : Bool) (texts : List GoString) : GoString :=
  bytes "<ul>"
    ++ (texts.map (fun t =>
          if tight then bytes "<li>" ++ t ++ bytes "</li>"
          else bytes "<li><p>" ++ t ++ bytes "</p></li>")).flatten
    ++ bytes "</ul>"

/-! # Theorems -/

/-! ## Trailing-newline normalisation -/

theorem HasSuffix_newline_iff (s : GoString) :
    HasSuffix s newline = true ↔ s.getLast? = some 10 := by
  induction s using List.reverseRecOn with
  | nil => simp [HasSuffix, newline]
  | append_singleton l a => simp [HasSuffix, newline]

theorem appendNewline_eq (s : GoString) :
    appendNewline s = if s.getLast? = some 10 then s else s ++ newline := by
  unfold appendNewline
  by_cases h : s.getLast? = some 10
  · simp [h, (HasSuffix_newline_iff s).2 h]
  · have h2 : HasSuffix s newline = false := by
      cases hs : HasSuffix s newline
      · rfl
      · exact absurd ((HasSuffix_newline_iff s).1 hs) h
    simp [h, h2]

theorem appendNewline_getLast (s : GoString) : (appendNewline s).getLast? = some 10 := by
  rw [appendNewline_eq]
  split
  · assumption
  · simp [newline]

theorem appendNewline_idem (s : GoString) : appendNewline (appendNewline s) = appendNewline s := by
  conv_lhs => rw [appendNewline_eq]
  simp [appendNewline_getLast]

/-- C1. `Md2Html` and `ParseDocument` hand the C parser the buffer `buf` that is
`text` when `text` already ends with a newline byte and `text ++ "\n"` otherwise;
the length passed with it is `len(buf)`.  The buffer always ends with a newline
and is at most one byte longer than `text`. -/
theorem Md2Html_ParseDocument_buffer (lib : CMark Node) (text : GoString) (options : Int)
    (w : World Node) :
    let buf := if text.getLast? = some 10 then text else text ++ newline
    (Md2Html lib text options w).2 =
        w ++ [Call.CString buf, Call.cmark_markdown_to_html buf buf.length (cInt options),
              Call.free (cmark_markdown_to_html lib buf buf.length (cInt options)),
              Call.free buf]
    ∧ (ParseDocument lib text options w).2 =
        w ++ [Call.CString buf, Call.cmark_parse_document buf buf.length (cInt options),
              Call.SetFinalizerNode (lib.cmark_parse_document buf buf.length (cInt options)),
              Call.free buf]
    ∧ (ParseDocument lib text options w).1.node =
        lib.cmark_parse_document buf buf.length (cInt options)
    ∧ buf.getLast? = some 10
    ∧ buf.length ≤ text.length + 1 := by
  intro buf
  have hb : appendNewline text = buf := appendNewline_eq text
  refine ⟨?_, ?_, ?_, ?_, ?_⟩
  · simp [Md2Html, hb]
  · simp [ParseDocument, hb]
  · simp [ParseDocument, hb]
  · rw [← hb]; exact appendNewline_getLast text
  · simp only [buf]; split <;> simp [newline]

/-- C9. The normalisation makes `x` and `x ++ "\n"` indistinguishable when `x` does
not end with a newline: `Md2Html` returns the same HTML and makes the same calls
for both, `ParseDocument` hands over the identical buffer and length (its whole
result and trace agree), and normalising a normalised buffer changes nothing. -/
theorem normalisation_idempotent (lib : CMark Node) (x : GoString) (options : Int)
    (w : World Node) (hx : x.getLast? ≠ some 10) :
    Md2Html lib x options w = Md2Html lib (x ++ newline) options w
    ∧ ParseDocument lib x options w = ParseDocument lib (x ++ newline) options w
    ∧ appendNewline x = x ++ newline
    ∧ appendNewline (x ++ newline) = x ++ newline
    ∧ appendNewline (appendNewline x) = appendNewline x := by
  have h1 : appendNewline x = x ++ newline := by
    rw [appendNewline_eq]; simp [hx]
  have h2 : appendNewline (x ++ newline) = x ++ newline := by
    rw [← h1]; exact appendNewline_idem x
  refine ⟨?_, ?_, h1, h2, appendNewline_idem x⟩
  · simp only [Md2Html, h1, h2]
  · simp only [ParseDocument, h1, h2]

theorem normalisation_idempotent_witness :
    (bytes "a").getLast? ≠ some 10
    ∧ (Md2Html sampleMark (bytes "a") 0 [] = Md2Html sampleMark (bytes "a" ++ newline) 0 []
      ∧ ParseDocument sampleMark (bytes "a") 0 []
          = ParseDocument sampleMark (bytes "a" ++ newline) 0 []
      ∧ appendNewline (bytes "a") = bytes "a" ++ newline
      ∧ appendNewline (bytes "a" ++ newline) = bytes "a" ++ newline
      ∧ appendNewline (appendNewline (bytes "a")) = appendNewline (bytes "a")) :=
  ⟨by decide, normalisation_idempotent sampleMark (bytes "a") 0 [] (by decide)⟩

/-! ## `Md2Html` as parse followed by render -/

/-- C5. `Md2Html(text, options)` is the HTML that rendering, with the same options
(and no extension list), gives for the document `ParseDocument(text, options)`
returns; neither result depends on the calls made before. -/
theorem Md2Html_eq_render_ParseDocument (lib : CMark Node) (text : GoString) (options : Int)
    (w w2 : World Node) :
    (Md2Html lib text options w).1 =
      lib.cmark_render_html (ParseDocument lib text options w2).1.node (cInt options) nil := by
  simp [Md2Html, ParseDocument, cmark_markdown_to_html]

/-! ## `MarkdownToHtml` feeds its text as given -/

/-- C2 (the code at the failing input). For the text `"a"`, which has no trailing
newline, `MarkdownToHtml` feeds the parser the one byte `"a"` with length 1,
while `Md2Html` and `ParseDocument` hand over `"a\n"` with length 2. -/
theorem MarkdownToHtml_feeds_unterminated :
    (MarkdownToHtml sampleEnv { parser := 1, opts := 0, extensions := nil } (bytes "a") []).2
      = [Call.CString (bytes "a"), Call.cmark_parser_feed 1 (bytes "a") 1,
         Call.cmark_parser_finish 1, Call.SetFinalizerNode (bytes "a"),
         Call.cmark_render_html (bytes "a") 0 nil,
         Call.free (bytes "a"), Call.CMarkNodeFree (bytes "a"), Call.free (bytes "a")]
    ∧ Call.cmark_parser_feed 1 (bytes "a\n") 2 ∉
        (MarkdownToHtml sampleEnv { parser := 1, opts := 0, extensions := nil } (bytes "a") []).2
    ∧ Call.cmark_markdown_to_html (bytes "a\n") 2 0 ∈
        (Md2Html sampleEnv.toCMark (bytes "a") 0 []).2
    ∧ Call.cmark_parse_document (bytes "a\n") 2 0 ∈
        (ParseDocument sampleEnv.toCMark (bytes "a") 0 []).2 := by
  refine ⟨?_, ?_, ?_, ?_⟩ <;> decide

/-! ## Releasing a parser -/

theorem applyOp_eq (cme : CMarkExtension) (w : World Node) (op : ParserOp) :
    applyOp cme w op =
      ({ cme with parser := nil },
       if cme.parser = nil then w else w ++ [Call.cmark_parser_free cme.parser]) := by
  cases op <;> by_cases h : cme.parser = nil <;> simp [applyOp, Close, Free, h]

theorem applyOps_nil_handle (cme : CMarkExtension) (w : World Node) (ops : List ParserOp)
    (h : cme.parser = nil) : applyOps cme w ops = (cme, w) := by
  induction ops with
  | nil => rfl
  | cons op ops ih =>
    have hc : ({ cme with parser := nil } : CMarkExtension) = cme := by
      cases cme with
      | mk p o e => cases p; simp at h; simp [h]
    simp only [applyOps, applyOp_eq, h, if_true, hc]
    exact ih

theorem applyOps_cons (cme : CMarkExtension) (w : World Node) (op : ParserOp)
    (ops : List ParserOp) :
    applyOps cme w (op :: ops) =
      ({ cme with parser := nil },
       if cme.parser = nil then w else w ++ [Call.cmark_parser_free cme.parser]) := by
  simp only [applyOps, applyOp_eq]
  exact applyOps_nil_handle _ _ ops rfl

/-- C4. After `Free`, and after `Close`, the parser handle is nil.  Over any sequence
of `Free` and `Close` calls on one parser the calls appended to the trace release
the C parser at most once (exactly once when the handle was not nil and the
sequence is not empty, and then it is that handle which is released), and a
`Free` or `Close` on a nil handle appends no call and leaves the state as it was. -/
theorem Free_releases_at_most_once (cmp : CMarkParser) (cme : CMarkExtension)
    (w : World Node) (ops : List ParserOp) (opts : Int) (exts : CPtr) :
    (Free cmp w).1.parser = nil
    ∧ (Close cme w).1.parser = nil
    ∧ Free ({ parser := nil } : CMarkParser) w = ({ parser := nil }, w)
    ∧ Close ({ parser := nil, opts := opts, extensions := exts } : CMarkExtension) w
        = ({ parser := nil, opts := opts, extensions := exts }, w)
    ∧ ∃ new : World Node, (applyOps cme w ops).2 = w ++ new
        ∧ (released new).length ≤ 1
        ∧ released new = (if cme.parser = nil ∨ ops = [] then [] else [cme.parser]) := by
  refine ⟨rfl, rfl, ?_, ?_, ?_⟩
  · simp [Free]
  · simp [Close, Free]
  · cases ops with
    | nil => exact ⟨[], by simp [applyOps], by simp [released], by simp [released]⟩
    | cons op ops =>
      rw [applyOps_cons]
      by_cases h : cme.parser = nil
      · exact ⟨[], by simp [h], by simp [released], by simp [released, h]⟩
      · exact ⟨[Call.cmark_parser_free cme.parser], by simp [h], by simp [released],
          by simp [released, h]⟩

/-! ## Feeding text -/

theorem feedAll_trace (cmp : CMarkParser) (w : World Node) (texts : List GoString) :
    feedAll cmp w texts =
      (cmp, w ++ (texts.map (fun t =>
        [Call.CString t, Call.cmark_parser_feed cmp.parser t t.length, Call.free t])).flatten) := by
  induction texts generalizing w with
  | nil => simp [feedAll]
  | cons t texts ih =>
    simp only [feedAll, Feed]
    rw [ih]
    simp

theorem fedChunks_feed_calls (p : CPtr) (texts : List GoString) :
    fedChunks ((texts.map (fun t =>
        [Call.CString t, Call.cmark_parser_feed p t t.length,
         (Call.free t : Call Node)])).flatten) = texts.map (fun t => (p, t, t.length)) := by
  induction texts with
  | nil => rfl
  | cons t texts ih => simpa [fedChunks] using ih

theorem byteStream_whole (p : CPtr) (texts : List GoString) :
    byteStream (texts.map (fun t => (p, t, t.length))) = texts.flatten := by
  induction texts with
  | nil => rfl
  | cons t texts ih =>
    simp only [byteStream, List.map_cons, List.flatten_cons, List.take_length] at ih ⊢
    rw [ih]

/-- C10. Over any sequence of `Feed` calls on one parser, the calls made are, for each
text in call order, a C copy of the text, `cmark_parser_feed` with that copy and
the text's own byte length, and the release of the copy, and nothing else; so the
chunks the C parser receives are exactly the given texts, the byte stream is
their concatenation, and the Go-side parser value is unchanged. -/
theorem Feed_verbatim (cmp : CMarkParser) (w : World Node) (texts : List GoString) :
    (feedAll cmp w texts).1 = cmp
    ∧ ∃ new : World Node, (feedAll cmp w texts).2 = w ++ new
        ∧ new = (texts.map (fun t =>
            [Call.CString t, Call.cmark_parser_feed cmp.parser t t.length, Call.free t])).flatten
        ∧ fedChunks new = texts.map (fun t => (cmp.parser, t, t.length))
        ∧ byteStream (fedChunks new) = texts.flatten := by
  rw [feedAll_trace]
  refine ⟨rfl, _, rfl, rfl, fedChunks_feed_calls _ texts, ?_⟩
  rw [fedChunks_feed_calls, byteStream_whole]

/-! ## Attaching extensions -/

theorem extensionCalls_append (a b : World Node) :
    extensionCalls (a ++ b) = extensionCalls a ++ extensionCalls b := by
  induction a with
  | nil => rfl
  | cons c a ih => cases c <;> simp [extensionCalls, ih]

/-- What `ParserAttachExtension` does: the extension value is returned as it was, and
the calls appended are memory calls, lookups and attaches on the same parser,
the lookups and attaches being one pair per name in argument order. -/
theorem ParserAttachExtension_trace (lib : CEnv Node) (cme : CMarkExtension)
    (names : List GoString) (w : World Node) :
    ∃ (new : World Node) (es : List CPtr),
      ParserAttachExtension lib cme names w = (cme, w ++ new)
      ∧ es.length = names.length
      ∧ extensionCalls new = lookupThenAttach cme.parser names es
      ∧ ∀ c ∈ new, (∃ s, c = Call.CString s ∨ c = Call.free s
                        ∨ c = Call.cmark_find_syntax_extension s)
                    ∨ ∃ e, c = Call.cmark_parser_attach_syntax_extension cme.parser e := by
  induction names generalizing w with
  | nil => exact ⟨[], [], by simp [ParserAttachExtension], rfl, rfl, by simp⟩
  | cons name names ih =>
    obtain ⟨new, es, h1, h2, h3, h4⟩ := ih (w ++ [Call.CString name]
      ++ [Call.cmark_find_syntax_extension name]
      ++ [Call.cmark_parser_attach_syntax_extension cme.parser
            (lib.cmark_find_syntax_extension (w ++ [Call.CString name]) name)]
      ++ [Call.free name])
    refine ⟨[Call.CString name, Call.cmark_find_syntax_extension name,
        Call.cmark_parser_attach_syntax_extension cme.parser
          (lib.cmark_find_syntax_extension (w ++ [Call.CString name]) name),
        Call.free name] ++ new,
      lib.cmark_find_syntax_extension (w ++ [Call.CString name]) name :: es, ?_, ?_, ?_, ?_⟩
    · simp only [ParserAttachExtension]
      rw [h1]
      simp
    · simp [h2]
    · rw [extensionCalls_append, h3]
      simp [extensionCalls, lookupThenAttach]
    · intro c hc
      rcases List.mem_append.1 hc with hc | hc
      · simp only [List.mem_cons, List.mem_singleton, List.not_mem_nil, or_false] at hc
        rcases hc with rfl | rfl | rfl | rfl
        · exact Or.inl ⟨name, Or.inl rfl⟩
        · exact Or.inl ⟨name, Or.inr (Or.inr rfl)⟩
        · exact Or.inr ⟨_, rfl⟩
        · exact Or.inl ⟨name, Or.inr (Or.inl rfl)⟩
      · exact h4 c hc

/-- C6. `ParserAttachExtension` leaves the stored options, the stored extension list
and the parser handle unchanged (the whole Go value is returned as it was), and the
calls it makes are, besides the C copies of the names and their release, exactly
one lookup followed by one attach on that parser per name, in argument order. -/
theorem ParserAttachExtension_frame (lib : CEnv Node) (cme : CMarkExtension)
    (names : List GoString) (w : World Node) :
    (ParserAttachExtension lib cme names w).1 = cme
    ∧ (ParserAttachExtension lib cme names w).1.opts = cme.opts
    ∧ (ParserAttachExtension lib cme names w).1.extensions = cme.extensions
    ∧ (ParserAttachExtension lib cme names w).1.parser = cme.parser
    ∧ ∃ (new : World Node) (es : List CPtr),
        (ParserAttachExtension lib cme names w).2 = w ++ new
        ∧ es.length = names.length
        ∧ extensionCalls new = lookupThenAttach cme.parser names es
        ∧ ∀ c ∈ new, (∃ s, c = Call.CString s ∨ c = Call.free s
                          ∨ c = Call.cmark_find_syntax_extension s)
                      ∨ ∃ e, c = Call.cmark_parser_attach_syntax_extension cme.parser e := by
  obtain ⟨new, es, h1, h2, h3, h4⟩ := ParserAttachExtension_trace lib cme names w
  rw [h1]
  exact ⟨rfl, rfl, rfl, rfl, new, es, rfl, h2, h3, h4⟩

/-- C8. `NewParserWithExts(options, exts...)` registers the core extensions first,
then creates the parser with `options` (as the C `int` the call converts them to),
stores `options` in `opts`, looks up and attaches every name once in argument
order, and last of all reads the extension list it stores: the value the C side
returns after the last attach.  `MarkdownToHtml` on the result renders with the
same C options the parser was created with and with that stored list.  The
conversion to C `int` leaves every value in the 32-bit range as it is. -/
theorem NewParserWithExts_spec (lib : CEnv Node) (options : Int) (exts : List GoString)
    (w : World Node) (text : GoString) (w2 : World Node) :
    (NewParserWithExts lib options exts w).1.opts = options
    ∧ (NewParserWithExts lib options exts w).1.parser =
        lib.cmark_parser_new (w ++ [Call.cmark_gfm_core_extensions_ensure_registered])
          (cInt options)
    ∧ (∃ (mid : World Node) (es : List CPtr),
        (NewParserWithExts lib options exts w).2 =
          w ++ [Call.cmark_gfm_core_extensions_ensure_registered,
                Call.cmark_parser_new (cInt options),
                Call.SetFinalizerParser (NewParserWithExts lib options exts w).1.parser]
            ++ mid
            ++ [Call.cmark_parser_get_syntax_extensions
                  (NewParserWithExts lib options exts w).1.parser]
        ∧ es.length = exts.length
        ∧ extensionCalls mid =
            lookupThenAttach (NewParserWithExts lib options exts w).1.parser exts es
        ∧ (NewParserWithExts lib options exts w).1.extensions =
            lib.cmark_parser_get_syntax_extensions
              (w ++ [Call.cmark_gfm_core_extensions_ensure_registered,
                     Call.cmark_parser_new (cInt options),
                     Call.SetFinalizerParser (NewParserWithExts lib options exts w).1.parser]
                 ++ mid)
              (NewParserWithExts lib options exts w).1.parser)
    ∧ (∃ n : Node, Call.cmark_render_html n (cInt options)
          (NewParserWithExts lib options exts w).1.extensions
        ∈ (MarkdownToHtml lib (NewParserWithExts lib options exts w).1 text w2).2)
    ∧ (-(2 : Int) ^ 31 ≤ options → options < 2 ^ 31 → cInt options = options) := by
  obtain ⟨mid, es, h1, h2, h3, _⟩ := ParserAttachExtension_trace lib
    { parser := lib.cmark_parser_new
        (w ++ [Call.cmark_gfm_core_extensions_ensure_registered]) (cInt options),
      opts := options, extensions := nil } exts
    (w ++ [Call.cmark_gfm_core_extensions_ensure_registered]
       ++ [Call.cmark_parser_new (cInt options),
           Call.SetFinalizerParser (lib.cmark_parser_new
             (w ++ [Call.cmark_gfm_core_extensions_ensure_registered]) (cInt options))])
  have hr : NewParserWithExts lib options exts w =
      ({ parser := lib.cmark_parser_new
            (w ++ [Call.cmark_gfm_core_extensions_ensure_registered]) (cInt options),
         opts := options,
         extensions := lib.cmark_parser_get_syntax_extensions
            (w ++ [Call.cmark_gfm_core_extensions_ensure_registered]
              ++ [Call.cmark_parser_new (cInt options),
                  Call.SetFinalizerParser (lib.cmark_parser_new
                    (w ++ [Call.cmark_gfm_core_extensions_ensure_registered]) (cInt options))]
              ++ mid)
            (lib.cmark_parser_new
              (w ++ [Call.cmark_gfm_core_extensions_ensure_registered]) (cInt options)) },
       w ++ [Call.cmark_gfm_core_extensions_ensure_registered]
         ++ [Call.cmark_parser_new (cInt options),
             Call.SetFinalizerParser (lib.cmark_parser_new
               (w ++ [Call.cmark_gfm_core_extensions_ensure_registered]) (cInt options))]
         ++ mid
         ++ [Call.cmark_parser_get_syntax_extensions (lib.cmark_parser_new
               (w ++ [Call.cmark_gfm_core_extensions_ensure_registered]) (cInt options))]) := by
    simp only [NewParserWithExts, NewCmarkParser]
    rw [h1]
    rfl
  rw [hr]
  refine ⟨rfl, rfl, ⟨mid, es, ?_, h2, h3, ?_⟩, ?_, ?_⟩
  · simp
  · simp
  · simp [MarkdownToHtml, Finish]
  · intro h1 h2
    unfold cInt
    omega

/-! ## Parsing a file -/

/-- C3. `ParseFile` returns an error exactly when `fopen` returns `NULL`.  In that case
the node is nil, the error message is `"Unable to open file with name: "` followed
by the file name, and no `cmark_parse_file` call is made.  Otherwise the node
wrapper is non-nil (it holds what `cmark_parse_file` returned for the opened
file), the error is nil, and the file is closed, after parsing and before the
return, by the one `fclose` call in the trace. -/
theorem ParseFile_error_iff (lib : CEnv Node) (filename : GoString) (options : Int)
    (w : World Node) :
    ((ParseFile lib filename options w).1.2 ≠ none ↔
        lib.fopen (w ++ [Call.CString filename, Call.CString (bytes "r")])
          filename (bytes "r") = nil)
    ∧ ((ParseFile lib filename options w).1.1 = none ↔
        lib.fopen (w ++ [Call.CString filename, Call.CString (bytes "r")])
          filename (bytes "r") = nil)
    ∧ (lib.fopen (w ++ [Call.CString filename, Call.CString (bytes "r")])
          filename (bytes "r") = nil →
        (ParseFile lib filename options w).1 = (none, some (unableToOpen ++ filename))
        ∧ (ParseFile lib filename options w).2 =
            w ++ [Call.CString filename, Call.CString (bytes "r"),
                  Call.fopen filename (bytes "r"),
                  Call.free (bytes "r"), Call.free filename]
        ∧ ∀ f o, Call.cmark_parse_file f o ∉
            [Call.CString filename, Call.CString (bytes "r"),
             Call.fopen filename (bytes "r"),
             Call.free (bytes "r"), (Call.free filename : Call Node)])
    ∧ (lib.fopen (w ++ [Call.CString filename, Call.CString (bytes "r")])
          filename (bytes "r") ≠ nil →
        (ParseFile lib filename options w).1 =
          (some { node := lib.cmark_parse_file
                    (w ++ [Call.CString filename, Call.CString (bytes "r"),
                           Call.fopen filename (bytes "r")])
                    (lib.fopen (w ++ [Call.CString filename, Call.CString (bytes "r")])
                       filename (bytes "r"))
                    (cInt options) },
           none)
        ∧ (ParseFile lib filename options w).2 =
            w ++ [Call.CString filename, Call.CString (bytes "r"),
                  Call.fopen filename (bytes "r"),
                  Call.cmark_parse_file
                    (lib.fopen (w ++ [Call.CString filename, Call.CString (bytes "r")])
                       filename (bytes "r"))
                    (cInt options),
                  Call.SetFinalizerNode
                    (lib.cmark_parse_file
                      (w ++ [Call.CString filename, Call.CString (bytes "r"),
                             Call.fopen filename (bytes "r")])
                      (lib.fopen (w ++ [Call.CString filename, Call.CString (bytes "r")])
                         filename (bytes "r"))
                      (cInt options)),
                  Call.fclose
                    (lib.fopen (w ++ [Call.CString filename, Call.CString (bytes "r")])
                       filename (bytes "r")),
                  Call.free (bytes "r"), Call.free filename]) := by
  by_cases h : lib.fopen (w ++ [Call.CString filename, Call.CString (bytes "r")])
      filename (bytes "r") = nil
  · refine ⟨?_, ?_, ?_, ?_⟩
    · simp [ParseFile, h]
    · simp [ParseFile, h]
    · intro _
      refine ⟨?_, ?_, ?_⟩
      · simp [ParseFile, h]
      · simp [ParseFile, h]
      · intro f o; simp
    · intro h2; exact absurd h h2
  · refine ⟨?_, ?_, ?_, ?_⟩
    · simp [ParseFile, h]
    · simp [ParseFile, h]
    · intro h2; exact absurd h2 h
    · intro _
      refine ⟨?_, ?_⟩
      · simp [ParseFile, h]
      · simp [ParseFile, h]

theorem ParseFile_error_iff_witness :
    (sampleEnv.fopen ([] ++ [Call.CString [], Call.CString (bytes "r")]) [] (bytes "r") = nil
      ∧ (ParseFile sampleEnv [] 0 []).1 = (none, some (unableToOpen ++ [])))
    ∧ (sampleEnv.fopen ([] ++ [Call.CString (bytes "f"), Call.CString (bytes "r")])
          (bytes "f") (bytes "r") ≠ nil
      ∧ (ParseFile sampleEnv (bytes "f") 0 []).2 =
          [] ++ [Call.CString (bytes "f"), Call.CString (bytes "r"),
                 Call.fopen (bytes "f") (bytes "r"),
                 Call.cmark_parse_file 3 0, Call.SetFinalizerNode [3],
                 Call.fclose 3, Call.free (bytes "r"), Call.free (bytes "f")]) :=
  ⟨⟨by decide, ((ParseFile_error_iff sampleEnv [] 0 []).2.2.1 (by decide)).1⟩,
   ⟨by decide, ((ParseFile_error_iff sampleEnv (bytes "f") 0 []).2.2.2 (by decide)).2⟩⟩


/-! ## List tightness in the modelled Markdown core -/

theorem bytes_dash : bytes "- " = [45, 32] := by decide

theorem isPlain_no_newline (t : GoString) (h : isPlain t = true) : (10 : Byte) ∉ t := by
  intro hm
  simp only [isPlain, Bool.and_eq_true, List.all_eq_true] at h
  have := h.1.1.1 10 hm
  revert this
  decide

theorem splitLines_line (t : GoString) (ht : (10 : Byte) ∉ t) (cur rest : GoString) :
    splitLines cur (t ++ 10 :: rest) = (cur ++ t) :: splitLines [] rest := by
  induction t generalizing cur with
  | nil => simp [splitLines]
  | cons b t ih =>
    have hb : b ≠ 10 := fun h => ht (by simp [h])
    have ht2 : (10 : Byte) ∉ t := fun h => ht (by simp [h])
    rw [List.cons_append, splitLines, if_neg hb, ih ht2]
    simp

theorem splitLines_blanks (n : Nat) (rest : GoString) :
    splitLines [] ((List.replicate n newline).flatten ++ rest)
      = List.replicate n [] ++ splitLines [] rest := by
  induction n with
  | zero => simp
  | succ n ih =>
    show splitLines [] (10 :: ((List.replicate n newline).flatten ++ rest))
      = [] :: (List.replicate n [] ++ splitLines [] rest)
    rw [splitLines, if_pos rfl, ih]

/-- The lines of the source of a list: per item its marker line and its blank lines. -/
theorem splitLines_listSource (items : List (GoString × Nat))
    (hplain : ∀ i ∈ items, isPlain i.1 = true) (rest : GoString) :
    splitLines [] (listSource items ++ rest)
      = (items.map (fun i => (bytes "- " ++ i.1) :: List.replicate i.2 [])).flatten
          ++ splitLines [] rest := by
  induction items with
  | nil => simp [listSource]
  | cons i items ih =>
    have h1 : (10 : Byte) ∉ bytes "- " ++ i.1 := by
      rw [bytes_dash]
      intro h
      rcases List.mem_append.1 h with h | h
      · revert h; decide
      · exact isPlain_no_newline _ (hplain i (by simp)) h
    have h2 : listSource (i :: items) ++ rest =
        (bytes "- " ++ i.1) ++ 10 :: ((List.replicate i.2 newline).flatten
          ++ (listSource items ++ rest)) := by
      simp [listSource, itemSource, newline]
    rw [h2, splitLines_line _ h1, splitLines_blanks, ih (fun j hj => hplain j (by simp [hj]))]
    simp

theorem classify_item (t : GoString) (h : isPlain t = true) :
    classify (bytes "- " ++ t) = Line.item t := by
  rw [bytes_dash]
  simp [classify, h]

theorem classify_blank : classify [] = Line.blank := by
  simp [classify]

theorem feedLines_append (s : ParserState) (a b : List GoString) :
    feedLines s (a ++ b) = (feedLines s a).bind (fun s2 => feedLines s2 b) := by
  induction a generalizing s with
  | nil => simp [feedLines]
  | cons l a ih =>
    simp only [List.cons_append, feedLines]
    cases feedLine s (classify l) with
    | none => simp
    | some s2 => simpa using ih s2

theorem feedLines_blanks_flagged (c : List Block) (its : List Item) (par : List GoString)
    (n : Nat) :
    feedLines { closed := c,
                opened := OpenBlocks.list its { paragraph := par, blankAfter := true } false }
        (List.replicate n [])
      = some { closed := c,
               opened := OpenBlocks.list its { paragraph := par, blankAfter := true } false } := by
  induction n with
  | zero => simp [feedLines]
  | succ n ih =>
    simp only [List.replicate_succ, feedLines, classify_blank, feedLine]
    exact ih

theorem feedLines_blanks (c : List Block) (its : List Item) (t : GoString) (n : Nat) :
    feedLines { closed := c,
                opened := OpenBlocks.list its { paragraph := [t], blankAfter := false } true }
        (List.replicate n [])
      = some { closed := c,
               opened := OpenBlocks.list its
                 { paragraph := [t], blankAfter := decide (0 < n) } (decide (n = 0)) } := by
  cases n with
  | zero => simp [feedLines]
  | succ n =>
    simp only [List.replicate_succ, feedLines, classify_blank, feedLine]
    simpa using feedLines_blanks_flagged c its [t] n

theorem feedLines_item (c : List Block) (its : List Item) (cur : Item) (po : Bool)
    (t : GoString) (n : Nat) (ht : isPlain t = true) (rest : List GoString) :
    feedLines { closed := c, opened := OpenBlocks.list its cur po }
        (((bytes "- " ++ t) :: List.replicate n []) ++ rest)
      = feedLines { closed := c,
                    opened := OpenBlocks.list (its ++ [cur]) (toItem (t, n)) (decide (n = 0)) }
          rest := by
  rw [List.cons_append, feedLines, classify_item t ht]
  simp only [feedLine]
  rw [feedLines_append, feedLines_blanks]
  rfl

theorem feedLines_first_item (t : GoString) (n : Nat) (ht : isPlain t = true)
    (rest : List GoString) :
    feedLines { closed := [], opened := OpenBlocks.none }
        (((bytes "- " ++ t) :: List.replicate n []) ++ rest)
      = feedLines { closed := [],
                    opened := OpenBlocks.list [] (toItem (t, n)) (decide (n = 0)) }
          rest := by
  rw [List.cons_append, feedLines, classify_item t ht]
  simp only [feedLine]
  rw [feedLines_append, feedLines_blanks]
  rfl

theorem feedLines_items (items : List (GoString × Nat))
    (hplain : ∀ i ∈ items, isPlain i.1 = true)
    (c : List Block) (its : List Item) (cur : Item) (po : Bool) :
    ∃ s, feedLines { closed := c, opened := OpenBlocks.list its cur po }
            (items.map (fun i => (bytes "- " ++ i.1) :: List.replicate i.2 [])).flatten = some s
      ∧ closeAll s = c ++ [Block.List true (its ++ cur :: items.map toItem)] := by
  induction items generalizing its cur po with
  | nil =>
    exact ⟨{ closed := c, opened := OpenBlocks.list its cur po }, by simp [feedLines],
      by simp [closeAll]⟩
  | cons i items ih =>
    obtain ⟨s, h1, h2⟩ := ih (fun j hj => hplain j (by simp [hj])) (its ++ [cur])
      (toItem (i.1, i.2)) (decide (i.2 = 0))
    refine ⟨s, ?_, ?_⟩
    · rw [List.map_cons, List.flatten_cons, feedLines_item _ _ _ _ _ _ (hplain i (by simp))]
      exact h1
    · rw [h2]; simp

theorem specParse_listSource (items : List (GoString × Nat)) (hne : items ≠ [])
    (hplain : ∀ i ∈ items, isPlain i.1 = true) :
    specParse (listSource items)
      = some { children := [Block.List (!separatedByBlank (items.map toItem))
                              (items.map toItem)] } := by
  have hs := splitLines_listSource items hplain []
  simp only [List.append_nil, splitLines, if_true] at hs
  cases items with
  | nil => exact absurd rfl hne
  | cons i items =>
    obtain ⟨s, h1, h2⟩ := feedLines_items items (fun j hj => hplain j (by simp [hj])) []
      [] (toItem (i.1, i.2)) (decide (i.2 = 0))
    have h3 : feedLines { closed := [], opened := OpenBlocks.none }
        (splitLines [] (listSource (i :: items))) = some s := by
      rw [hs, List.map_cons, List.flatten_cons,
        feedLines_first_item _ _ (hplain i (by simp))]
      exact h1
    simp only [specParse, h3, h2]
    simp [reconcile]

theorem listSource_getLast (items : List (GoString × Nat)) (hne : items ≠ []) :
    (listSource items).getLast? = some 10 := by
  induction items using List.reverseRecOn with
  | nil => exact absurd rfl hne
  | append_singleton l i _ =>
    have h : listSource (l ++ [i]) =
        (listSource l ++ bytes "- " ++ i.1 ++ (List.replicate i.2 newline).flatten) ++ [10] := by
      have hr : (List.replicate i.2 newline).flatten ++ [10]
          = 10 :: (List.replicate i.2 newline).flatten := by
        induction i.2 with
        | zero => rfl
        | succ n ih =>
          rw [List.replicate_succ, List.flatten_cons]
          show (10 : Byte) :: ((List.replicate n newline).flatten ++ [10]) = _
          rw [ih]; rfl
      simp only [listSource, itemSource, List.map_append, List.map_cons, List.map_nil,
        List.flatten_append, List.flatten_cons, List.flatten_nil, List.append_nil, newline,
        List.append_assoc]
      rw [show ([10] : GoString) = newline from rfl] at hr ⊢
      rw [hr]
      simp [newline]
    rw [h]
    simp

theorem renderItems_toItem (tight : Bool) (items : List (GoString × Nat)) :
    ((items.map toItem).map (renderItem tight)).flatten
      = ((items.map (fun i => i.1)).map (fun t =>
          if tight then bytes "<li>" ++ t ++ bytes "</li>"
          else bytes "<li><p>" ++ t ++ bytes "</p></li>")).flatten := by
  induction items with
  | nil => rfl
  | cons i items ih =>
    simp only [List.map_cons, List.flatten_cons, ih]
    cases tight <;> simp [renderItem, toItem, joinLines]

theorem separatedByBlank_toItem (items : List (GoString × Nat)) :
    separatedByBlank (items.map toItem) = items.dropLast.any (fun i => decide (0 < i.2)) := by
  simp only [separatedByBlank, List.dropLast_eq_take, List.length_map, ← List.map_take]
  induction List.take (items.length - 1) items with
  | nil => rfl
  | cons i l ih => simp [toItem, ih]

theorem listHtml_tight_ne_loose (t : GoString) (ts : List GoString) (ht : isPlain t = true) :
    listHtml false (t :: ts) ≠ listHtml true (t :: ts) := by
  intro h
  have e1 : bytes "<ul>" = [60, 117, 108, 62] := by decide
  have e2 : bytes "<li>" = [60, 108, 105, 62] := by decide
  have e3 : bytes "<li><p>" = [60, 108, 105, 62, 60, 112, 62] := by decide
  cases t with
  | nil => simp [isPlain] at ht
  | cons b t =>
    have hb : isPlainByte b = true := by
      simp only [isPlain, Bool.and_eq_true, List.all_eq_true] at ht
      exact ht.1.1.1 b (by simp)
    have h2 := congrArg (fun l => (l.drop 8).head?) h
    simp [listHtml, e1, e2, e3] at h2
    rw [← h2] at hb
    revert hb
    decide

theorem specParse_lists_reconciled (text : GoString) (d : Document)
    (h : specParse text = some d) (tight : Bool) (its : List Item)
    (hb : Block.List tight its ∈ d.children) : tight = !separatedByBlank its := by
  simp only [specParse] at h
  split at h
  · rename_i s _
    injection h with h
    subst h
    simp only [List.mem_map] at hb
    obtain ⟨b, _, hb2⟩ := hb
    cases b with
    | Paragraph ls => simp [reconcile] at hb2
    | List t items =>
      simp only [reconcile, Block.List.injEq] at hb2
      rw [← hb2.1, hb2.2]
  · exact absurd h (by simp)

/-- C7. In the Markdown core modelled from the spec, with the default options:
`Md2Html` of `"- a\n- b\n"` gives list items without a paragraph wrapper
(`<li>a</li>`), `Md2Html` of `"- a\n\n- b\n"` gives paragraph-wrapped items
(`<li><p>a</p></li>`), and in general the bullet list written as items of plain
text, each followed by any number of blank lines, is rendered tight if and only
if no item but the last is followed by a blank line, that is, no two items are
separated by one.  For every input of the fragment, each `List` of the parsed
document is tight exactly when no two of its items are separated by a blank line,
and it is rendered with `<li>`/`</li>` around the bare item content when tight and
around `<p>`/`</p>` otherwise. -/
theorem list_tightness (items : List (GoString × Nat)) (w : World (Option Document))
    (hne : items ≠ []) (hplain : ∀ i ∈ items, isPlain i.1 = true) :
    (Md2Html specMark (bytes "- a\n- b\n") 0 w).1 = bytes "<ul><li>a</li><li>b</li></ul>"
    ∧ (Md2Html specMark (bytes "- a\n\n- b\n") 0 w).1
        = bytes "<ul><li><p>a</p></li><li><p>b</p></li></ul>"
    ∧ (Md2Html specMark (listSource items) 0 w).1
        = listHtml (!(items.dropLast.any (fun i => decide (0 < i.2))))
            (items.map (fun i => i.1))
    ∧ ((Md2Html specMark (listSource items) 0 w).1 = listHtml true (items.map (fun i => i.1))
        ↔ ∀ i ∈ items.dropLast, i.2 = 0)
    ∧ (∀ (text : GoString) (d : Document) (tight : Bool) (its : List Item),
        specParse text = some d → Block.List tight its ∈ d.children →
          (tight = true ↔ separatedByBlank its = false)
          ∧ renderBlock (Block.List tight its)
              = bytes "<ul>"
                ++ (its.map (fun i =>
                      if separatedByBlank its
                      then bytes "<li><p>" ++ joinLines i.paragraph ++ bytes "</p></li>"
                      else bytes "<li>" ++ joinLines i.paragraph ++ bytes "</li>")).flatten
                ++ bytes "</ul>") := by
  have hgen : (Md2Html specMark (listSource items) 0 w).1
      = listHtml (!(items.dropLast.any (fun i => decide (0 < i.2))))
          (items.map (fun i => i.1)) := by
    have hb : appendNewline (listSource items) = listSource items := by
      rw [appendNewline_eq, if_pos (listSource_getLast items hne)]
    have hc : cInt 0 = 0 := by decide
    simp only [Md2Html, hb, hc, cmark_markdown_to_html, specMark, List.take_length, if_true,
      specParse_listSource items hne hplain, renderDocument, List.map_cons, List.map_nil,
      List.flatten_cons, List.flatten_nil, List.append_nil, renderBlock, listHtml,
      renderItems_toItem, separatedByBlank_toItem]
  refine ⟨?_, ?_, hgen, ?_, ?_⟩
  · show (Md2Html specMark (bytes "- a\n- b\n") 0 []).1 = _
    decide
  · show (Md2Html specMark (bytes "- a\n\n- b\n") 0 []).1 = _
    decide
  rotate_left
  · intro text d tight its hd hmem
    have ht := specParse_lists_reconciled text d hd tight its hmem
    refine ⟨by rw [ht]; simp, ?_⟩
    rw [ht]
    have e : ∀ b : Bool, renderItem b = fun i =>
        if b = true then bytes "<li>" ++ joinLines i.paragraph ++ bytes "</li>"
        else bytes "<li><p>" ++ joinLines i.paragraph ++ bytes "</p></li>" :=
      fun b => funext (fun i => rfl)
    cases separatedByBlank its <;> simp [renderBlock, e]
  · rw [hgen]
    constructor
    · intro h i hi
      by_contra hpos
      have hany : items.dropLast.any (fun i => decide (0 < i.2)) = true :=
        List.any_eq_true.2 ⟨i, hi, by simpa using Nat.pos_of_ne_zero hpos⟩
      rw [hany] at h
      cases items with
      | nil => exact hne rfl
      | cons j items =>
        simp only [Bool.not_true, List.map_cons] at h
        exact listHtml_tight_ne_loose j.1 (items.map (fun i => i.1)) (hplain j (by simp)) h
    · intro h
      have hany : items.dropLast.any (fun i => decide (0 < i.2)) = false := by
        rw [List.any_eq_false]
        intro i hi
        simp [h i hi]
      rw [hany]; rfl

theorem list_tightness_witness :
    ([(bytes "a", 1), (bytes "b", 0)] : List (GoString × Nat)) ≠ []
    ∧ (∀ i ∈ ([(bytes "a", 1), (bytes "b", 0)] : List (GoString × Nat)), isPlain i.1 = true)
    ∧ listSource [(bytes "a", 1), (bytes "b", 0)] = bytes "- a\n\n- b\n"
    ∧ (Md2Html specMark (listSource [(bytes "a", 1), (bytes "b", 0)]) 0 []).1
        = listHtml (!(([(bytes "a", 1), (bytes "b", 0)] : List (GoString × Nat)).dropLast.any
            (fun i => decide (0 < i.2))))
            (([(bytes "a", 1), (bytes "b", 0)] : List (GoString × Nat)).map (fun i => i.1)) :=
  ⟨by decide, by decide, by decide,
   (list_tightness [(bytes "a", 1), (bytes "b", 0)] [] (by decide) (by decide)).2.2.1⟩

end Gfm
